import Mathlib

/-!
Verification of the SoftWhisper diarization core (speaker_tagger.py and
diarization_gui.py) against its natural-language specification.

Times that Python stores as floats are modelled as exact rationals (`Rat`):
the properties verified here only compare, subtract and order times, never
rely on floating-point rounding.  External collaborators (the
inaSpeechSegmenter segmenter, librosa decoding and feature extraction,
sklearn clustering, the square-root function used by `np.linalg.norm` and
`np.std`) are modelled as components of an explicit environment record,
with fallible calls returning `Except String`.
-/

namespace SoftWhisper

/-- A raw segmenter interval, the tuple `(label, start, end, *extra)` that
`inaSpeechSegmenter` produces and that `merge_segments` consumes.
`meta` models the optional extra tuple fields `seg[3:]`. -/
structure RSeg where
  cat : String
  start : Rat
  stop : Rat
  meta : List String
deriving DecidableEq, Repr

/-- Loop body of `merge_segments` (speaker_tagger.py lines 98-106): the
current interval is `merged[-1]`; a next segment with the same label within
`gap_threshold` of the current end extends the current interval (keeping the
current interval's label, start and extra fields `last_seg[3:]`), otherwise
the current interval is emitted and the next segment starts a new run. -/
def mergeRun (gap : Rat) (cur : RSeg) : List RSeg → List RSeg
  | [] => [cur]
  | s :: rest =>
    if s.cat = cur.cat ∧ s.start - cur.stop ≤ gap then
      mergeRun gap { cur with stop := s.stop } rest
    else
      cur :: mergeRun gap s rest

/-- `merge_segments(segments, gap_threshold)` from speaker_tagger.py
lines 95-106. -/
def merge_segments (gap : Rat) : List RSeg → List RSeg
  | [] => []
  | s :: rest => mergeRun gap s rest

/-- One step of the left fold described by the specification (§4.1): state is
(emitted intervals, current interval). -/
def mergeSpecStep (gap : Rat) (st : List RSeg × Option RSeg) (s : RSeg) :
    List RSeg × Option RSeg :=
  match st.2 with
  | none => (st.1, some s)
  | some cur =>
    if s.cat = cur.cat ∧ s.start - cur.stop ≤ gap then
      (st.1, some { cur with stop := s.stop })
    else
      (st.1 ++ [cur], some s)

/-- The SegmentMerger algorithm exactly as the specification words it
(§4.1): "fold left; keep a current interval; for each next interval, if its
category equals current's category and next.start - current.end <=
gap_threshold, extend current's end to next.end; else emit current and start
a new current with next.  Emit the final current."  Coalescing keeps the
first interval's metadata. -/
def mergeSpec (gap : Rat) (xs : List RSeg) : List RSeg :=
  match xs.foldl (mergeSpecStep gap) ([], none) with
  | (out, none) => out
  | (out, some cur) => out ++ [cur]

theorem mergeRun_foldl (gap : Rat) :
    ∀ (l : List RSeg) (out : List RSeg) (cur : RSeg),
      (match l.foldl (mergeSpecStep gap) (out, some cur) with
        | (o, none) => o
        | (o, some c) => o ++ [c]) = out ++ mergeRun gap cur l := by
  intro l
  induction l with
  | nil => intro out cur; simp [mergeRun]
  | cons s rest ih =>
    intro out cur
    by_cases h : s.cat = cur.cat ∧ s.start - cur.stop ≤ gap
    · simp only [List.foldl_cons, mergeSpecStep, if_pos h, mergeRun, ih]
    · simp only [List.foldl_cons, mergeSpecStep, if_neg h, mergeRun, ih,
        List.append_assoc, List.singleton_append]

/-- C3: for every input sequence of intervals, `merge_segments` computes
exactly the specification's left fold — extend the current interval's end
to the next interval's end exactly when the categories agree and the gap is
within threshold, otherwise emit and restart — and a coalesced interval
keeps the first interval's extra metadata fields (both sides carry the
current interval's `meta` through every extension). -/
theorem merge_segments_eq_spec (gap : Rat) (xs : List RSeg) :
    merge_segments gap xs = mergeSpec gap xs := by
  cases xs with
  | nil => rfl
  | cons s rest =>
    simp only [merge_segments, mergeSpec, List.foldl_cons, mergeSpecStep]
    have := mergeRun_foldl gap rest [] s
    simpa using this.symm

/-- The separation property that `merge_segments` establishes between
consecutive output intervals: they could not have been merged. -/
def Separated (gap : Rat) (u v : RSeg) : Prop :=
  ¬ (v.cat = u.cat ∧ v.start - u.stop ≤ gap)

theorem mergeRun_head (gap : Rat) :
    ∀ (l : List RSeg) (cur : RSeg), ∃ c rest,
      mergeRun gap cur l = c :: rest ∧ c.cat = cur.cat ∧ c.start = cur.start := by
  intro l
  induction l with
  | nil => intro cur; exact ⟨cur, [], rfl, rfl, rfl⟩
  | cons s tail ih =>
    intro cur
    by_cases h : s.cat = cur.cat ∧ s.start - cur.stop ≤ gap
    · obtain ⟨c, rest, heq, hcat, hstart⟩ := ih { cur with stop := s.stop }
      refine ⟨c, rest, ?_, hcat, hstart⟩
      simp only [mergeRun]; rw [if_pos h]; exact heq
    · refine ⟨cur, mergeRun gap s tail, ?_, rfl, rfl⟩
      simp only [mergeRun]; rw [if_neg h]

theorem mergeRun_chain (gap : Rat) :
    ∀ (l : List RSeg) (cur : RSeg),
      List.Chain' (Separated gap) (mergeRun gap cur l) := by
  intro l
  induction l with
  | nil => intro cur; simp [mergeRun]
  | cons s tail ih =>
    intro cur
    by_cases h : s.cat = cur.cat ∧ s.start - cur.stop ≤ gap
    · simp only [mergeRun]; rw [if_pos h]; exact ih { cur with stop := s.stop }
    · obtain ⟨c, rest, heq, hcat, hstart⟩ := mergeRun_head gap tail s
      have hchain := ih s
      simp only [mergeRun]; rw [if_neg h]
      rw [heq] at hchain ⊢
      refine List.Chain'.cons ?_ hchain
      intro hcontra
      exact h ⟨hcat ▸ hcontra.1, by rw [← hstart]; exact hcontra.2⟩

theorem merge_segments_chain (gap : Rat) (xs : List RSeg) :
    List.Chain' (Separated gap) (merge_segments gap xs) := by
  cases xs with
  | nil => simp [merge_segments]
  | cons s rest => exact mergeRun_chain gap rest s

theorem mergeRun_of_chain (gap : Rat) :
    ∀ (l : List RSeg) (cur : RSeg),
      List.Chain' (Separated gap) (cur :: l) → mergeRun gap cur l = cur :: l := by
  intro l
  induction l with
  | nil => intro cur _; rfl
  | cons s tail ih =>
    intro cur hchain
    have hsep : Separated gap cur s := (List.chain'_cons.mp hchain).1
    have htail := (List.chain'_cons.mp hchain).2
    simp only [mergeRun]; rw [if_neg hsep, ih s htail]

theorem merge_of_chain (gap : Rat) (xs : List RSeg)
    (h : List.Chain' (Separated gap) xs) : merge_segments gap xs = xs := by
  cases xs with
  | nil => rfl
  | cons s rest => exact mergeRun_of_chain gap rest s h

/-- C4: SegmentMerger is idempotent: re-running `merge_segments` on its own
output (with the same gap threshold) changes nothing. -/
theorem merge_segments_idempotent (gap : Rat) (xs : List RSeg) :
    merge_segments gap (merge_segments gap xs) = merge_segments gap xs :=
  merge_of_chain gap _ (merge_segments_chain gap xs)

/-! ### Chronological relabeling (speaker_tagger.py lines 283-300) -/

/-- A clustered segment: the tuple
`(orig_label, start, end, [optional extra], gender, cluster)` built at
speaker_tagger.py line 280 by appending the gender-group name and the
within-group cluster label to the merged segment tuple. -/
structure CSeg where
  origLabel : String
  start : Rat
  stop : Rat
  meta : List String
  gender : String
  cluster : Nat
deriving DecidableEq, Repr

/-- The composite key `(gender, cluster)` (`comp = (seg[-2], seg[-1])`,
speaker_tagger.py line 292). -/
def compKey (s : CSeg) : String × Nat := (s.gender, s.cluster)

/-- A final speaker segment: the output tuple
`(start, end, new_speaker_number, gender, orig_label)` of
speaker_tagger.py line 299. -/
structure FSeg where
  start : Rat
  stop : Rat
  speaker : Nat
  gender : String
  origLabel : String
deriving DecidableEq, Repr

/-- Stable insertion into a list sorted by start time: the new element goes
after every element whose start is `≤` its own. -/
def insertByStart (x : CSeg) : List CSeg → List CSeg
  | [] => [x]
  | y :: ys => if y.start ≤ x.start then y :: insertByStart x ys else x :: y :: ys

/-- The stable sort by segment start time, modelling
`group_clustered_segments.sort(key=lambda s: float(s[1]))`
(speaker_tagger.py line 285).  Python's `list.sort` is stable; a fold of
stable insertions computes the same (unique) stably sorted list. -/
def sortByStart (l : List CSeg) : List CSeg :=
  l.foldl (fun acc x => insertByStart x acc) []

/-- Association lookup in the `composite_to_new` mapping, modelled as an
insertion-ordered association list. -/
def assocFind (k : String × Nat) : List ((String × Nat) × Nat) → Option Nat
  | [] => none
  | p :: ps => if p.1 = k then some p.2 else assocFind k ps

/-- The relabeling loop of speaker_tagger.py lines 287-300: walk the sorted
segments keeping the map `composite_to_new` and the counter
`next_speaker_number`; mint a new number for each unseen composite key;
output `(start, end, composite_to_new[comp] + 1, gender, orig_label)`. -/
def relabelAux (m : List ((String × Nat) × Nat)) (next : Nat) :
    List CSeg → List FSeg
  | [] => []
  | seg :: rest =>
    match assocFind (compKey seg) m with
    | some n =>
        ⟨seg.start, seg.stop, n + 1, seg.gender, seg.origLabel⟩ ::
          relabelAux m next rest
    | none =>
        ⟨seg.start, seg.stop, next + 1, seg.gender, seg.origLabel⟩ ::
          relabelAux (m ++ [(compKey seg, next)]) (next + 1) rest

/-- The chronological relabeling stage: sort all pooled clustered segments
by start time (stable), then assign speaker numbers in order of first
appearance of each composite key, starting at 1. -/
def chronologicalRelabel (pooled : List CSeg) : List FSeg :=
  relabelAux [] 0 (sortByStart pooled)

/-- Distinct elements of a sequence, in order of first appearance, given the
elements already `seen`. -/
def firstOccsFrom {α : Type} [DecidableEq α] (seen : List α) : List α → List α
  | [] => []
  | k :: ks =>
    if k ∈ seen then firstOccsFrom seen ks
    else k :: firstOccsFrom (k :: seen) ks

/-- Distinct elements of a sequence, in order of first appearance (the
iteration order of a Python dict keyed by those elements). -/
def firstOccs {α : Type} [DecidableEq α] (l : List α) : List α :=
  firstOccsFrom [] l

/-- Index of a key in a key list (length of the list when absent). -/
def keyIdx (k : String × Nat) : List (String × Nat) → Nat
  | [] => 0
  | x :: xs => if x = k then 0 else keyIdx k xs + 1

/-- Specification-side minting function (§4.5): the integer minted for
composite key `k` is one more than the position of `k`'s first appearance
among the distinct keys of the walked sequence, so fresh integers are
assigned starting at 1 in first-appearance order. -/
def firstAppearanceId (ks : List (String × Nat)) (k : String × Nat) : Nat :=
  keyIdx k (firstOccs ks) + 1

/-- The relabeling pass described by the specification's words: every
segment receives the id minted for its composite key at that key's first
appearance in the walked order. -/
def relabelSpecOf (segs : List CSeg) : List FSeg :=
  segs.map fun s =>
    ⟨s.start, s.stop, firstAppearanceId (segs.map compKey) (compKey s),
      s.gender, s.origLabel⟩

theorem keyIdx_append_of_mem (k : String × Nat) (E L : List (String × Nat))
    (h : k ∈ E) : keyIdx k (E ++ L) = keyIdx k E := by
  induction E with
  | nil => cases h
  | cons x xs ih =>
    by_cases hx : x = k
    · simp [keyIdx, hx]
    · have hk : k ∈ xs := by
        rcases List.mem_cons.mp h with h1 | h1
        · exact absurd h1.symm hx
        · exact h1
      simp [keyIdx, hx, ih hk]

theorem keyIdx_append_of_not_mem (k : String × Nat) (E L : List (String × Nat))
    (h : k ∉ E) : keyIdx k (E ++ L) = E.length + keyIdx k L := by
  induction E with
  | nil => simp
  | cons x xs ih =>
    have hx : x ≠ k := fun hc => h (by simp [hc])
    have hk : k ∉ xs := fun hc => h (List.mem_cons_of_mem _ hc)
    simp [keyIdx, hx, ih hk]
    omega

theorem keyIdx_lt_length (k : String × Nat) (l : List (String × Nat))
    (h : k ∈ l) : keyIdx k l < l.length := by
  induction l with
  | nil => cases h
  | cons x xs ih =>
    by_cases hx : x = k
    · simp [keyIdx, hx]
    · have hk : k ∈ xs := by
        rcases List.mem_cons.mp h with h1 | h1
        · exact absurd h1.symm hx
        · exact h1
      simp [keyIdx, hx]
      exact ih hk

theorem keyIdx_inj (a b : String × Nat) (l : List (String × Nat))
    (ha : a ∈ l) (hb : b ∈ l) (h : keyIdx a l = keyIdx b l) : a = b := by
  induction l with
  | nil => cases ha
  | cons x xs ih =>
    by_cases hab : a = b
    · exact hab
    by_cases hxa : x = a
    · have hxb : x ≠ b := fun hc => hab (hxa ▸ hc)
      rw [keyIdx, if_pos hxa, keyIdx, if_neg hxb] at h
      omega
    · by_cases hxb : x = b
      · rw [keyIdx, if_neg hxa, keyIdx, if_pos hxb] at h
        omega
      · have hka : a ∈ xs := by
          rcases List.mem_cons.mp ha with h1 | h1
          · exact absurd h1.symm hxa
          · exact h1
        have hkb : b ∈ xs := by
          rcases List.mem_cons.mp hb with h1 | h1
          · exact absurd h1.symm hxb
          · exact h1
        rw [keyIdx, if_neg hxa, keyIdx, if_neg hxb] at h
        exact ih hka hkb (by omega)

theorem firstOccsFrom_congr {α : Type} [DecidableEq α] (l : List α) :
    ∀ s₁ s₂ : List α, (∀ x, x ∈ s₁ ↔ x ∈ s₂) →
      firstOccsFrom s₁ l = firstOccsFrom s₂ l := by
  induction l with
  | nil => intro s₁ s₂ _; rfl
  | cons k ks ih =>
    intro s₁ s₂ hs
    by_cases hk : k ∈ s₁
    · have hk₂ : k ∈ s₂ := (hs k).mp hk
      simp [firstOccsFrom, hk, hk₂, ih s₁ s₂ hs]
    · have hk₂ : k ∉ s₂ := fun hc => hk ((hs k).mpr hc)
      have hext : ∀ x, x ∈ k :: s₁ ↔ x ∈ k :: s₂ := by
        intro x; simp [hs x]
      simp [firstOccsFrom, hk, hk₂, ih (k :: s₁) (k :: s₂) hext]

theorem mem_firstOccsFrom {α : Type} [DecidableEq α] (k : α) (l : List α) :
    ∀ seen, k ∈ l → k ∉ seen → k ∈ firstOccsFrom seen l := by
  induction l with
  | nil => intro seen h _; cases h
  | cons x xs ih =>
    intro seen hmem hseen
    by_cases hx : x ∈ seen
    · have hk : k ∈ xs := by
        rcases List.mem_cons.mp hmem with h1 | h1
        · exact absurd (h1 ▸ hx) hseen
        · exact h1
      simpa [firstOccsFrom, hx] using ih seen hk hseen
    · rcases List.mem_cons.mp hmem with h1 | h1
      · simp [firstOccsFrom, hx, h1]
      · by_cases hkx : k = x
        · simp [firstOccsFrom, hx, hkx]
        · have : k ∉ x :: seen := by
            intro hc
            rcases List.mem_cons.mp hc with h2 | h2
            · exact hkx h2
            · exact hseen h2
          simp [firstOccsFrom, hx]
          exact Or.inr (ih (x :: seen) h1 this)

theorem mem_firstOccs {α : Type} [DecidableEq α] (k : α) (l : List α)
    (h : k ∈ l) : k ∈ firstOccs l :=
  mem_firstOccsFrom k l [] h (by simp)

/-- Keys to the right of `enumKeys`: the association list whose entries are
`(E i, i)` in order. -/
def enumKeys : List (String × Nat) → Nat → List ((String × Nat) × Nat)
  | [], _ => []
  | k :: ks, n => (k, n) :: enumKeys ks (n + 1)

theorem assocFind_enumKeys (k : String × Nat) (E : List (String × Nat)) :
    ∀ n, assocFind k (enumKeys E n) =
      if k ∈ E then some (n + keyIdx k E) else none := by
  induction E with
  | nil => intro n; simp [enumKeys, assocFind]
  | cons x xs ih =>
    intro n
    by_cases hx : x = k
    · subst hx
      simp [enumKeys, assocFind, keyIdx]
    · have hmem : (k ∈ x :: xs) ↔ (k ∈ xs) := by
        constructor
        · intro h
          rcases List.mem_cons.mp h with h1 | h1
          · exact absurd h1.symm hx
          · exact h1
        · exact List.mem_cons_of_mem x
      simp only [enumKeys, assocFind]
      rw [if_neg hx, ih (n + 1)]
      by_cases hk : k ∈ xs
      · rw [if_pos hk, if_pos (hmem.mpr hk), keyIdx, if_neg hx]
        congr 1
        omega
      · rw [if_neg hk, if_neg (fun hc => hk (hmem.mp hc))]

theorem enumKeys_append (E : List (String × Nat)) (k : String × Nat) :
    ∀ n, enumKeys E n ++ [(k, n + E.length)] = enumKeys (E ++ [k]) n := by
  induction E with
  | nil => intro n; simp [enumKeys]
  | cons x xs ih =>
    intro n
    simp only [List.cons_append, enumKeys, List.length_cons]
    have harith : n + (xs.length + 1) = (n + 1) + xs.length := by omega
    rw [harith, ih (n + 1)]
    rfl

/-- Main invariant of the relabeling walk: starting from the association
list enumerating the already-seen distinct keys `E` (with counter
`E.length`), every segment receives one plus the position of its composite
key in `E` extended by the remaining keys' first occurrences. -/
theorem relabelAux_spec (segs : List CSeg) :
    ∀ E : List (String × Nat),
      relabelAux (enumKeys E 0) E.length segs =
        segs.map (fun s =>
          ⟨s.start, s.stop,
            keyIdx (compKey s) (E ++ firstOccsFrom E (segs.map compKey)) + 1,
            s.gender, s.origLabel⟩) := by
  induction segs with
  | nil => intro E; rfl
  | cons seg rest ih =>
    intro E
    by_cases hk : compKey seg ∈ E
    · have hfind := assocFind_enumKeys (compKey seg) E 0
      rw [if_pos hk] at hfind
      simp only [relabelAux, hfind, List.map_cons]
      have htailkeys : firstOccsFrom E (compKey seg :: List.map compKey rest) =
          firstOccsFrom E (List.map compKey rest) := by
        simp [firstOccsFrom, hk]
      rw [htailkeys, ih E, keyIdx_append_of_mem _ _ _ hk]
      simp
    · have hfind := assocFind_enumKeys (compKey seg) E 0
      rw [if_neg hk] at hfind
      simp only [relabelAux, hfind, List.map_cons]
      have hkeys : firstOccsFrom E (compKey seg :: List.map compKey rest) =
          compKey seg :: firstOccsFrom (compKey seg :: E) (List.map compKey rest) := by
        simp [firstOccsFrom, hk]
      have hhead : keyIdx (compKey seg)
          (E ++ compKey seg :: firstOccsFrom (compKey seg :: E) (List.map compKey rest)) =
          E.length := by
        rw [keyIdx_append_of_not_mem _ _ _ hk]
        simp [keyIdx]
      have henum : enumKeys E 0 ++ [(compKey seg, E.length)] =
          enumKeys (E ++ [compKey seg]) 0 := by
        simpa using enumKeys_append E (compKey seg) 0
      have hlen : E.length + 1 = (E ++ [compKey seg]).length := by simp
      rw [hkeys, hhead, henum, hlen, ih (E ++ [compKey seg])]
      have hcongr : firstOccsFrom (E ++ [compKey seg]) (List.map compKey rest) =
          firstOccsFrom (compKey seg :: E) (List.map compKey rest) := by
        apply firstOccsFrom_congr
        intro x; simp [or_comm]
      rw [hcongr]
      simp

/-- The relabeling pass equals the specification-side description, for any
walked sequence. -/
theorem relabelAux_eq_spec (segs : List CSeg) :
    relabelAux [] 0 segs = relabelSpecOf segs := by
  have := relabelAux_spec segs []
  simpa [relabelSpecOf, enumKeys, firstOccs, firstAppearanceId] using this

/-- C1: for every pooled sequence of clustered segments, after the stable
sort by start time ascending, each segment's speaker_id equals the integer
minted for its composite key `(category, cluster_id)` at that key's first
appearance in sorted order, with fresh integers assigned starting at 1 in
first-appearance order; the same composite key always maps to the same
speaker_id and two distinct composite keys never map to the same speaker_id
within one run. -/
theorem chronologicalRelabel_mints_first_appearance (pooled : List CSeg) :
    chronologicalRelabel pooled = relabelSpecOf (sortByStart pooled)
    ∧ (∀ a b : CSeg, a ∈ sortByStart pooled → b ∈ sortByStart pooled →
        compKey a = compKey b →
        firstAppearanceId ((sortByStart pooled).map compKey) (compKey a)
          = firstAppearanceId ((sortByStart pooled).map compKey) (compKey b))
    ∧ (∀ a b : CSeg, a ∈ sortByStart pooled → b ∈ sortByStart pooled →
        compKey a ≠ compKey b →
        firstAppearanceId ((sortByStart pooled).map compKey) (compKey a)
          ≠ firstAppearanceId ((sortByStart pooled).map compKey) (compKey b)) := by
  refine ⟨relabelAux_eq_spec (sortByStart pooled), ?_, ?_⟩
  · intro a b _ _ hk
    rw [hk]
  · intro a b ha hb hk hcontra
    apply hk
    have hma : compKey a ∈ firstOccs ((sortByStart pooled).map compKey) :=
      mem_firstOccs _ _ (List.mem_map_of_mem compKey ha)
    have hmb : compKey b ∈ firstOccs ((sortByStart pooled).map compKey) :=
      mem_firstOccs _ _ (List.mem_map_of_mem compKey hb)
    unfold firstAppearanceId at hcontra
    exact keyIdx_inj _ _ _ hma hmb (by omega)

/-- Witness for C1 at a concrete input: a male segment at [0,5) clustered
to cluster 0 and a female segment at [5,10) clustered to cluster 0 receive
speaker ids 1 and 2 in chronological order, and the two distinct composite
keys receive distinct ids. -/
theorem chronologicalRelabel_mints_first_appearance_witness :
    chronologicalRelabel
        [⟨"male", 0, 5, [], "male", 0⟩, ⟨"female", 5, 10, [], "female", 0⟩]
      = relabelSpecOf (sortByStart
        [⟨"male", 0, 5, [], "male", 0⟩, ⟨"female", 5, 10, [], "female", 0⟩])
    ∧ firstAppearanceId
        ((sortByStart [⟨"male", 0, 5, [], "male", 0⟩,
            ⟨"female", 5, 10, [], "female", 0⟩]).map compKey)
        (compKey ⟨"male", 0, 5, [], "male", 0⟩)
      ≠ firstAppearanceId
        ((sortByStart [⟨"male", 0, 5, [], "male", 0⟩,
            ⟨"female", 5, 10, [], "female", 0⟩]).map compKey)
        (compKey ⟨"female", 5, 10, [], "female", 0⟩)
    ∧ chronologicalRelabel
        [⟨"male", 0, 5, [], "male", 0⟩, ⟨"female", 5, 10, [], "female", 0⟩]
      = [⟨0, 5, 1, "male", "male"⟩, ⟨5, 10, 2, "female", "female"⟩] :=
  ⟨(chronologicalRelabel_mints_first_appearance _).1,
    (chronologicalRelabel_mints_first_appearance
        [⟨"male", 0, 5, [], "male", 0⟩, ⟨"female", 5, 10, [], "female", 0⟩]).2.2
      ⟨"male", 0, 5, [], "male", 0⟩ ⟨"female", 5, 10, [], "female", 0⟩
      (by decide) (by decide) (by decide),
    by decide⟩

/-! ### Embedding extraction (speaker_tagger.py lines 109-208) -/

/-- The external collaborators of the pipeline, modelled as an explicit
environment bound to one audio file:
`load` is `librosa.load(path, sr=16000, offset=start, duration=duration)`
returning the decoded samples, `mfcc` is `librosa.feature.mfcc` returning
the `(n_mfcc, T)` coefficient matrix as a list of `n_mfcc` rows, `delta`
and `delta2` are `librosa.feature.delta` of order 1 and 2, `sqrt` is the
real square root used by `np.std` and `np.linalg.norm`, `segmenter` is the
inaSpeechSegmenter call, and `cluster` is
`AgglomerativeClustering(...).fit_predict` on one group's embedding matrix.
Fallible external calls are modelled with `Except String`: an `error`
result stands for a raised exception carrying its message. -/
structure Env where
  sqrt : Rat → Rat
  load : Rat → Rat → Except String (List Rat)
  mfcc : List Rat → Except String (List (List Rat))
  delta : List (List Rat) → Except String (List (List Rat))
  delta2 : List (List Rat) → Except String (List (List Rat))
  segmenter : Except String (List RSeg)
  cluster : List (List Rat) → Except String (List Nat)

/-- Sum of a list of rationals (`np.sum`). -/
def listSum (l : List Rat) : Rat := l.foldl (· + ·) 0

/-- `np.mean` of one row. -/
def npMean (row : List Rat) : Rat := listSum row / row.length

/-- `np.std` of one row: the square root of the mean squared deviation. -/
def npStd (env : Env) (row : List Rat) : Rat :=
  env.sqrt (listSum (row.map fun x => (x - npMean row) ^ 2) / row.length)

/-- `np.mean(m, axis=1)`: one mean per coefficient row. -/
def meanAxis1 (m : List (List Rat)) : List Rat := m.map npMean

/-- `np.std(m, axis=1)`: one standard deviation per coefficient row. -/
def stdAxis1 (env : Env) (m : List (List Rat)) : List Rat := m.map (npStd env)

/-- `np.linalg.norm(v)`: the Euclidean norm. -/
def l2norm (env : Env) (v : List Rat) : Rat :=
  env.sqrt (listSum (v.map fun x => x ^ 2))

/-- `mfcc.shape[1]`: the number of time frames of the `(n_mfcc, T)`
coefficient matrix. -/
def frameCount (m : List (List Rat)) : Nat := (m.headD []).length

/-- `np.zeros(embedding_dim) + 1e-6`: the ε-filled vector. -/
def epsVec (d : Nat) : List Rat := List.replicate d (1e-6 : Rat)

/-- The degenerate placeholder returned on short segments and failures:
the ε-filled vector divided by its norm
(`embedding / np.linalg.norm(embedding)`, speaker_tagger.py lines 138-139,
149-150, 205-206 — all three sites build the identical value). -/
def epsPlaceholder (env : Env) (embedding_dim : Nat) : List Rat :=
  (epsVec embedding_dim).map (· / l2norm env (epsVec embedding_dim))

/-- Final normalization of a successfully computed embedding
(speaker_tagger.py lines 196-200): if the norm is exactly zero, substitute
ε = 1e-6 before dividing. -/
def normalizeFinal (env : Env) (v : List Rat) : List Rat :=
  let norm := l2norm env v
  let norm := if norm = 0 then (1e-6 : Rat) else norm
  v.map (· / norm)

/-- `get_embeddings(audio_path, start, end, orig_label, n_mfcc)` from
speaker_tagger.py lines 109-208.  The whole body runs inside
`try ... except`, so each failing external call is modelled by its `error`
branch falling back to the degenerate placeholder; the function itself is
total and never propagates a failure. -/
def get_embeddings (env : Env) (start stop : Rat) (n_mfcc : Nat) : List Rat :=
  let embedding_dim := n_mfcc * 3 * 2
  let duration := stop - start
  if duration < (0.05 : Rat) then epsPlaceholder env embedding_dim
  else
    match env.load start duration with
    | .error _ => epsPlaceholder env embedding_dim
    | .ok y =>
      if y.length < 2048 then epsPlaceholder env embedding_dim
      else
        match env.mfcc y with
        | .error _ => epsPlaceholder env embedding_dim
        | .ok m =>
          if frameCount m < 7 then
            let static_embedding := meanAxis1 m ++ stdAxis1 env m
            let padding := List.replicate (embedding_dim - n_mfcc * 2) (0 : Rat)
            normalizeFinal env (static_embedding ++ padding)
          else
            match env.delta m with
            | .error _ => epsPlaceholder env embedding_dim
            | .ok d =>
              match env.delta2 m with
              | .error _ => epsPlaceholder env embedding_dim
              | .ok d2 =>
                normalizeFinal env
                  (meanAxis1 m ++ stdAxis1 env m ++ meanAxis1 d ++ stdAxis1 env d
                    ++ meanAxis1 d2 ++ stdAxis1 env d2)

/-- C5: for every segment shorter than 0.05 s, for every segment whose
decoded sample count is below 2048, and whenever decoding or feature
extraction fails, `get_embeddings` returns the same fixed placeholder (the
ε-filled vector of dimension `n_mfcc * 3 * 2`, L2-normalized) instead of
propagating the failure. -/
theorem get_embeddings_degenerate (env : Env) (start stop : Rat) (n_mfcc : Nat)
    (h : stop - start < (0.05 : Rat)
      ∨ (∃ msg, env.load start (stop - start) = .error msg)
      ∨ (∃ y, env.load start (stop - start) = .ok y ∧ y.length < 2048)
      ∨ (∃ y msg, env.load start (stop - start) = .ok y ∧ ¬ y.length < 2048
          ∧ env.mfcc y = .error msg)
      ∨ (∃ y m, env.load start (stop - start) = .ok y ∧ ¬ y.length < 2048
          ∧ env.mfcc y = .ok m ∧ ¬ frameCount m < 7
          ∧ ((∃ msg, env.delta m = .error msg)
              ∨ (∃ d msg, env.delta m = .ok d ∧ env.delta2 m = .error msg)))) :
    get_embeddings env start stop n_mfcc = epsPlaceholder env (n_mfcc * 3 * 2) := by
  by_cases hdur : stop - start < (0.05 : Rat)
  · simp only [get_embeddings]
    rw [if_pos hdur]
  rcases h with hdur' | ⟨msg, hload⟩ | ⟨y, hload, hshort⟩
      | ⟨y, msg, hload, hlong, hmfcc⟩ | ⟨y, m, hload, hlong, hmfcc, hframes, hdelta⟩
  · exact absurd hdur' hdur
  · simp only [get_embeddings]
    rw [if_neg hdur, hload]
  · simp only [get_embeddings]
    rw [if_neg hdur, hload]
    simp only [if_pos hshort]
  · simp only [get_embeddings]
    rw [if_neg hdur, hload]
    simp only [if_neg hlong]
    rw [hmfcc]
  · rcases hdelta with ⟨msg, hd⟩ | ⟨d, msg, hd, hd2⟩
    · simp only [get_embeddings]
      rw [if_neg hdur, hload]
      simp only [if_neg hlong]
      rw [hmfcc]
      simp only [if_neg hframes]
      rw [hd]
    · simp only [get_embeddings]
      rw [if_neg hdur, hload]
      simp only [if_neg hlong]
      rw [hmfcc]
      simp only [if_neg hframes]
      rw [hd, hd2]

/-- Witness for C5: a concrete environment whose decoder raises, evaluated
on a 1-second segment, yields exactly the normalized ε-placeholder of
dimension 240. -/
theorem get_embeddings_degenerate_witness :
    get_embeddings
        { sqrt := fun x => x, load := fun _ _ => .error "decode failed",
          mfcc := fun _ => .error "unused", delta := fun _ => .error "unused",
          delta2 := fun _ => .error "unused", segmenter := .error "unused",
          cluster := fun _ => .error "unused" }
        0 1 40
      = epsPlaceholder
        { sqrt := fun x => x, load := fun _ _ => .error "decode failed",
          mfcc := fun _ => .error "unused", delta := fun _ => .error "unused",
          delta2 := fun _ => .error "unused", segmenter := .error "unused",
          cluster := fun _ => .error "unused" }
        (40 * 3 * 2) :=
  get_embeddings_degenerate _ 0 1 40
    (Or.inr (Or.inl ⟨"decode failed", rfl⟩))

theorem epsPlaceholder_length (env : Env) (d : Nat) :
    (epsPlaceholder env d).length = d := by
  simp [epsPlaceholder, epsVec]

theorem normalizeFinal_length (env : Env) (v : List Rat) :
    (normalizeFinal env v).length = v.length := by
  simp [normalizeFinal]

theorem meanAxis1_length (m : List (List Rat)) :
    (meanAxis1 m).length = m.length := by
  simp [meanAxis1]

theorem stdAxis1_length (env : Env) (m : List (List Rat)) :
    (stdAxis1 env m).length = m.length := by
  simp [stdAxis1]

/-- C9: whatever branch `get_embeddings` takes (degenerate placeholder,
static-only with zero padding, or the full static+delta+delta-delta path),
the returned embedding has exactly dimension `n_mfcc * 3 * 2`, provided the
MFCC call returns an `(n_mfcc, T)` matrix and the delta calls preserve the
row count — the documented contracts of `librosa.feature.mfcc` and
`librosa.feature.delta`. -/
theorem get_embeddings_dim (env : Env) (start stop : Rat) (n_mfcc : Nat)
    (hm : ∀ y m, env.mfcc y = Except.ok m → m.length = n_mfcc)
    (hd : ∀ m d, env.delta m = Except.ok d → d.length = m.length)
    (hd2 : ∀ m d, env.delta2 m = Except.ok d → d.length = m.length) :
    (get_embeddings env start stop n_mfcc).length = n_mfcc * 3 * 2 := by
  simp only [get_embeddings]
  split
  · exact epsPlaceholder_length _ _
  split
  next => exact epsPlaceholder_length _ _
  next y hload =>
    split
    · exact epsPlaceholder_length _ _
    split
    next => exact epsPlaceholder_length _ _
    next m hmfcc =>
      have hmlen := hm y m hmfcc
      split
      · rw [normalizeFinal_length]
        simp only [List.length_append, List.length_replicate,
          meanAxis1_length, stdAxis1_length, hmlen]
        omega
      split
      next => exact epsPlaceholder_length _ _
      next d hdelta =>
        split
        next => exact epsPlaceholder_length _ _
        next d2 hdelta2 =>
          rw [normalizeFinal_length]
          simp only [List.length_append, meanAxis1_length, stdAxis1_length,
            hmlen, hd m d hdelta, hd2 m d2 hdelta2]
          omega

/-- A concrete environment satisfying the librosa shape contracts, used to
witness the dimension invariant. -/
def envDim : Env :=
  { sqrt := fun x => x,
    load := fun _ _ => .ok (List.replicate 2048 (0 : Rat)),
    mfcc := fun _ => .ok (List.replicate 40 [(1 : Rat)]),
    delta := fun m => .ok m,
    delta2 := fun m => .ok m,
    segmenter := .error "unused",
    cluster := fun _ => .error "unused" }

/-- Witness for C9: in the concrete environment `envDim` (one MFCC frame,
so the static-with-padding branch is taken) the embedding of a 1-second
segment has dimension 240. -/
theorem get_embeddings_dim_witness :
    (get_embeddings envDim 0 1 40).length = 40 * 3 * 2 :=
  get_embeddings_dim envDim 0 1 40
    (fun y m h => by cases h; rfl)
    (fun m d h => by cases h; rfl)
    (fun m d h => by cases h; rfl)

/-! ### Transcript alignment (diarization_gui.py lines 128-138) -/

/-- The per-entry speaker lookup loop of `merge_diarization`
(diarization_gui.py lines 130-137): the label starts as
"[Speaker Unknown]: "; the first diarization segment whose half-open span
contains the entry's start time overwrites it, and the loop breaks. -/
def alignSpeakerLabel (segs : List FSeg) (t : Rat) : String :=
  match segs with
  | [] => "[Speaker Unknown]: "
  | s :: rest =>
    if s.start ≤ t ∧ t < s.stop then "[Speaker " ++ toString s.speaker ++ "]: "
    else alignSpeakerLabel rest t

/-- C2: for every transcript entry start time and every sequence of final
speaker segments, the entry receives the speaker id of the first segment in
the sequence's given order satisfying
`segment.start <= entry.start < segment.end`; if no segment satisfies this
the sentinel label "Speaker Unknown" is used. -/
theorem alignSpeakerLabel_first_match (segs : List FSeg) (t : Rat) :
    alignSpeakerLabel segs t =
      match segs.find? (fun s => decide (s.start ≤ t ∧ t < s.stop)) with
      | some s => "[Speaker " ++ toString s.speaker ++ "]: "
      | none => "[Speaker Unknown]: " := by
  induction segs with
  | nil => rfl
  | cons s rest ih =>
    by_cases h : s.start ≤ t ∧ t < s.stop
    · simp only [alignSpeakerLabel, if_pos h, List.find?]
      rw [show (decide (s.start ≤ t ∧ t < s.stop)) = true by simpa using h]
    · simp only [alignSpeakerLabel, if_neg h, List.find?]
      rw [show (decide (s.start ≤ t ∧ t < s.stop)) = false by simpa using h]
      exact ih

/-! ### SRT parsing (diarization_gui.py lines 43-90)

String routines are executed on `List Char` so that every definition is
evaluable by the kernel; they model the Python operations `str.strip`,
`str.splitlines`, `str.split` and `re.split`/`re.match` for the ASCII
whitespace and digit classes actually appearing in SRT text. -/

/-- Python `str.strip()` on a character list. -/
def pyStripChars (l : List Char) : List Char :=
  ((l.dropWhile Char.isWhitespace).reverse.dropWhile Char.isWhitespace).reverse

/-- Python `str.strip()`. -/
def pyStrip (s : String) : String := String.mk (pyStripChars s.data)

/-- Python `str.splitlines()`: split at `\n`, `\r\n` and `\r`, with no
trailing empty line for a trailing terminator. -/
def splitLinesAux : List Char → List Char → List String
  | [], acc => if acc.isEmpty then [] else [String.mk acc.reverse]
  | '\r' :: '\n' :: rest, acc => String.mk acc.reverse :: splitLinesAux rest []
  | '\n' :: rest, acc => String.mk acc.reverse :: splitLinesAux rest []
  | '\r' :: rest, acc => String.mk acc.reverse :: splitLinesAux rest []
  | c :: rest, acc => splitLinesAux rest (c :: acc)

/-- Python `str.splitlines()` (the `block.splitlines()` call of
diarization_gui.py line 71). -/
def splitLines (s : String) : List String := splitLinesAux s.data []

/-- Index of the last occurrence of a character in a list, if any. -/
def lastIdxOf (c : Char) : List Char → Option Nat
  | [] => none
  | x :: xs =>
    match lastIdxOf c xs with
    | some n => some (n + 1)
    | none => if x = c then some 0 else none

/-- `re.split(r'\n\s*\n', text)` (diarization_gui.py line 69): a separator
is a newline, a greedy run of whitespace, and a final newline — i.e. it
extends to the last newline inside the whitespace run following the first
newline. -/
def splitBlocksAux : Nat → List Char → List Char → List String
  | _, [], acc => [String.mk acc.reverse]
  | 0, cs, acc => [String.mk (acc.reverse ++ cs)]
  | fuel + 1, c :: rest, acc =>
    if c = '\n' then
      match lastIdxOf '\n' (rest.takeWhile Char.isWhitespace) with
      | some p => String.mk acc.reverse :: splitBlocksAux fuel (rest.drop (p + 1)) []
      | none => splitBlocksAux fuel rest (c :: acc)
    else splitBlocksAux fuel rest (c :: acc)

/-- Splitting SRT content into blocks at blank-line separators.  The fuel
argument (one unit per consumed character, so `cs.length` always suffices)
only makes the recursion structural; the exhaustion branch is unreachable. -/
def splitBlocks (s : String) : List String :=
  splitBlocksAux s.data.length s.data []

/-- One `\d{2}:\d{2}:\d{2},\d{3}` timestamp at the head of the character
list: returns the 12 matched characters and the remainder. -/
def takeTs : List Char → Option (List Char × List Char)
  | d1 :: d2 :: s1 :: d3 :: d4 :: s2 :: d5 :: d6 :: s3 :: d7 :: d8 :: d9 :: rest =>
    if d1.isDigit && d2.isDigit && s1 = ':' && d3.isDigit && d4.isDigit
        && s2 = ':' && d5.isDigit && d6.isDigit && s3 = ','
        && d7.isDigit && d8.isDigit && d9.isDigit then
      some ([d1, d2, s1, d3, d4, s2, d5, d6, s3, d7, d8, d9], rest)
    else none
  | _ => none

/-- `re.match(r'(\d{2}:\d{2}:\d{2},\d{3})\s*-->\s*(\d{2}:\d{2}:\d{2},\d{3})', line)`
(diarization_gui.py line 77): anchored at the start, trailing characters
allowed; returns the two captured timestamp strings. -/
def matchTimestamp (s : String) : Option (String × String) :=
  match takeTs s.data with
  | none => none
  | some (ts1, rest) =>
    match rest.dropWhile Char.isWhitespace with
    | '-' :: '-' :: '>' :: rest2 =>
      match takeTs (rest2.dropWhile Char.isWhitespace) with
      | some (ts2, _) => some (String.mk ts1, String.mk ts2)
      | none => none
    | _ => none

/-- Python `str.split(sep)` for a single-character separator. -/
def splitOnChar (c : Char) : List Char → List (List Char)
  | [] => [[]]
  | x :: xs =>
    let r := splitOnChar c xs
    if x = c then [] :: r
    else
      match r with
      | y :: ys => (x :: y) :: ys
      | [] => [[x]]

/-- Python `int()` on a string of decimal digits (only ever applied to the
digit groups captured by the timestamp pattern). -/
def digitsToNat (l : List Char) : Nat :=
  l.foldl (fun a c => a * 10 + (c.toNat - 48)) 0

/-- `srt_time_to_seconds(time_str)` from diarization_gui.py lines 43-54:
hours, minutes, seconds and milliseconds of an `hh:mm:ss,ms` string,
combined into seconds. -/
def srt_time_to_seconds (time_str : String) : Rat :=
  let parts := splitOnChar ':' time_str.data
  let hours := digitsToNat (parts.getD 0 [])
  let minutes := digitsToNat (parts.getD 1 [])
  let sec_ms := splitOnChar ',' (parts.getD 2 [])
  let seconds := digitsToNat (sec_ms.getD 0 [])
  let milliseconds := digitsToNat (sec_ms.getD 1 [])
  (hours * 3600 + minutes * 60 + seconds : Rat) + milliseconds / 1000

/-- A parsed subtitle entry: the dict built at diarization_gui.py
lines 82-89. -/
structure SrtEntry where
  index : String
  start_str : String
  end_str : String
  start : Rat
  stop : Rat
  text : String
deriving DecidableEq, Repr

/-- The per-block body of the `parse_srt` loop (diarization_gui.py
lines 70-89): a block yields an entry exactly when it has at least three
lines and its second line matches the timestamp pattern; otherwise it is
skipped without error. -/
def parseSrtBlock (block : String) : Option SrtEntry :=
  let lines := splitLines block
  if 3 ≤ lines.length then
    let index := pyStrip (lines.getD 0 "")
    let timestamp_line := pyStrip (lines.getD 1 "")
    let text := pyStrip (String.intercalate "\n" (lines.drop 2))
    match matchTimestamp timestamp_line with
    | some (start_str, end_str) =>
      some { index, start_str, end_str,
             start := srt_time_to_seconds start_str,
             stop := srt_time_to_seconds end_str, text }
    | none => none
  else none

/-- The accumulation step of the `parse_srt` loop: append the entry when
the block parses, keep the accumulator unchanged when it is skipped. -/
def parseFoldStep (entries : List SrtEntry) (block : String) : List SrtEntry :=
  match parseSrtBlock block with
  | some e => entries ++ [e]
  | none => entries

/-- `parse_srt(srt_content)` from diarization_gui.py lines 57-90. -/
def parse_srt (srt_content : String) : List SrtEntry :=
  (splitBlocks (pyStrip srt_content)).foldl parseFoldStep []

theorem foldl_parseFoldStep (l : List String) :
    ∀ acc : List SrtEntry,
      l.foldl parseFoldStep acc = acc ++ l.filterMap parseSrtBlock := by
  induction l with
  | nil => intro acc; simp
  | cons b bs ih =>
    intro acc
    cases hfb : parseSrtBlock b with
    | some e => simp [parseFoldStep, hfb, ih, List.filterMap_cons]
    | none => simp [parseFoldStep, hfb, ih, List.filterMap_cons]

/-- C6: a block is turned into a transcript entry only if it has at least 3
lines and its (stripped) second line matches the
`HH:MM:SS,mmm --> HH:MM:SS,mmm` pattern; every block failing either
condition is skipped silently — it produces no entry (and `parse_srt` is a
total function, so no error is raised). -/
theorem parse_srt_strict :
    (∀ content, parse_srt content
        = (splitBlocks (pyStrip content)).filterMap parseSrtBlock)
    ∧ (∀ block, ((splitLines block).length < 3
          ∨ matchTimestamp (pyStrip (((splitLines block)[1]?).getD "")) = none)
        → parseSrtBlock block = none)
    ∧ (∀ block e, parseSrtBlock block = some e
        → 3 ≤ (splitLines block).length
          ∧ (matchTimestamp (pyStrip (((splitLines block)[1]?).getD ""))).isSome) := by
  refine ⟨?_, ?_, ?_⟩
  · intro content
    simpa [parse_srt] using
      foldl_parseFoldStep (splitBlocks (pyStrip content)) []
  · intro block h
    rcases h with h | h
    · have h3 : ¬ 3 ≤ (splitLines block).length := by omega
      simp [parseSrtBlock, h3]
    · by_cases h3 : 3 ≤ (splitLines block).length
      · simp [parseSrtBlock, h3, h]
      · simp [parseSrtBlock, h3]
  · intro block e h
    by_cases h3 : 3 ≤ (splitLines block).length
    · refine ⟨h3, ?_⟩
      cases hts : matchTimestamp (pyStrip (((splitLines block)[1]?).getD "")) with
      | some p => simp
      | none => simp [parseSrtBlock, h3, hts] at h
    · simp [parseSrtBlock, h3] at h

/-- Witness for C6: the two-line block "1\nHello" (no timestamp line) and
the three-line block with a malformed second line are both skipped, and a
transcript consisting only of such blocks parses to no entries. -/
theorem parse_srt_strict_witness :
    parseSrtBlock "1\nHello" = none
    ∧ parseSrtBlock "1\nnot a timestamp\nHello" = none
    ∧ parse_srt "1\nHello, no timestamp here" = [] :=
  ⟨parse_srt_strict.2.1 "1\nHello" (Or.inl (by decide)),
    parse_srt_strict.2.1 "1\nnot a timestamp\nHello" (Or.inr (by decide)),
    by decide⟩

/-! ### Merging speaker labels into the transcript and re-serialization
(diarization_gui.py lines 93-166) -/

/-- The dict appended to `merged_entries` at diarization_gui.py
lines 141-145. -/
structure MergedEntry where
  index : String
  timestamp : String
  text : String
deriving DecidableEq, Repr

/-- The per-entry merge loop (diarization_gui.py lines 128-145): prepend
the looked-up speaker label to the text, and keep the timestamp line only
when `remove_timestamps` is false. -/
def mergeEntries (segs : List FSeg) (remove_timestamps : Bool)
    (entries : List SrtEntry) : List MergedEntry :=
  entries.map fun e =>
    { index := e.index,
      timestamp := if remove_timestamps then ""
        else e.start_str ++ " --> " ++ e.end_str,
      text := alignSpeakerLabel segs e.start ++ e.text }

/-- One iteration of the output-rebuilding loop (diarization_gui.py
lines 151-159): emit index and (non-empty) timestamp only when
`remove_timestamps` is false, then the text line and a blank line. -/
def rebuildStep (remove_timestamps : Bool) (srt_lines : List String)
    (e : MergedEntry) : List String :=
  (if remove_timestamps then srt_lines
    else srt_lines ++ [e.index]
      ++ (if e.timestamp = "" then [] else [e.timestamp]))
  ++ [e.text, ""]

/-- Rebuilding the output string (diarization_gui.py lines 150-161). -/
def rebuildOutput (remove_timestamps : Bool) (entries : List MergedEntry) :
    String :=
  String.intercalate "\n" (entries.foldl (rebuildStep remove_timestamps) [])

/-- The pure tail of `merge_diarization` (diarization_gui.py lines 122-166):
everything after the diarization segments have been obtained — parse the
SRT content, label each entry, rebuild the output. -/
def merge_diarization_core (segs : List FSeg) (srt_content : String)
    (remove_timestamps : Bool) : String :=
  rebuildOutput remove_timestamps
    (mergeEntries segs remove_timestamps (parse_srt srt_content))

theorem foldl_rebuildStep (rt : Bool) (l : List MergedEntry) :
    ∀ acc, l.foldl (rebuildStep rt) acc
      = acc ++ l.flatMap (fun e =>
          (if rt then []
            else [e.index] ++ (if e.timestamp = "" then [] else [e.timestamp]))
          ++ [e.text, ""]) := by
  induction l with
  | nil => intro acc; simp
  | cons e es ih =>
    intro acc
    cases rt
    · simp [rebuildStep, ih, List.flatMap_cons, List.append_assoc]
    · simp [rebuildStep, ih, List.flatMap_cons, List.append_assoc]

theorem timestamp_line_ne_empty (a b : String) : a ++ " --> " ++ b ≠ "" := by
  intro h
  have h2 := congrArg String.length h
  simp [String.length_append] at h2
  exact absurd h2.1.2 (by decide)

/-- C8: with `remove_timestamps = true` the serialized result consists only
of the labeled text lines (each "[Speaker N]: text" or
"[Speaker Unknown]: text" followed by a blank separator line): index and
timestamp are dropped for every entry. -/
theorem merge_diarization_core_no_metadata (segs : List FSeg)
    (srt_content : String) :
    merge_diarization_core segs srt_content true
      = String.intercalate "\n" ((parse_srt srt_content).flatMap
          fun e => [alignSpeakerLabel segs e.start ++ e.text, ""]) := by
  unfold merge_diarization_core rebuildOutput
  rw [foldl_rebuildStep]
  unfold mergeEntries
  rw [List.flatMap_map]
  simp

/-- C10: `merge_diarization`'s pure tail produces exactly one output block
per parsed entry, in the order of the parsed entries, and each block's text
line is the assigned speaker label followed by the entry's original text
unchanged (with index and timestamp line additionally present when metadata
is kept). -/
theorem merge_diarization_core_preserves_entries (segs : List FSeg)
    (srt_content : String) (remove_timestamps : Bool) :
    merge_diarization_core segs srt_content remove_timestamps
      = String.intercalate "\n" ((parse_srt srt_content).flatMap
          fun e =>
            (if remove_timestamps then []
              else [e.index, e.start_str ++ " --> " ++ e.end_str])
            ++ [alignSpeakerLabel segs e.start ++ e.text, ""]) := by
  unfold merge_diarization_core rebuildOutput
  rw [foldl_rebuildStep]
  unfold mergeEntries
  rw [List.flatMap_map]
  cases remove_timestamps
  · simp only [if_neg Bool.false_ne_true, List.nil_append]
    congr 1
    apply List.flatMap_congr
    intro x hx
    rw [if_neg (timestamp_line_ne_empty x.start_str x.end_str)]
    rfl
  · simp

/-! ### The full pipeline `SpeakerTagger.process_audio`
(speaker_tagger.py lines 226-307) -/

/-- `get_gender(orig_label)` from speaker_tagger.py lines 212-219. -/
def get_gender (orig_label : String) : String :=
  let l := orig_label.toLower
  if l.startsWith "male" then "male"
  else if l.startsWith "female" then "female"
  else "unknown"

/-- The abort raised by the `except` handler of `process_audio`
(speaker_tagger.py lines 305-307): the handler logs the underlying cause and
calls `sys.exit(1)`; the resulting `SystemExit` carries exit code 1 and — by
Python's implicit exception chaining inside an `except` block — the
underlying exception as its context.  Modelled as an exit code plus the
cause message. -/
structure ExitFailure where
  code : Nat
  cause : String
deriving DecidableEq, Repr

/-- The body of the `try` block of `process_audio` (speaker_tagger.py
lines 228-303): segment, merge, embed, group by gender in first-occurrence
order (Python dicts iterate in insertion order), cluster each non-empty
group, pool, and relabel chronologically.  In this typed model every
segmenter tuple carries its three mandatory fields with numeric times, so
the `len(seg) >= 3` and float-conversion guards of lines 240-247 never
fire.  A raised exception is an `error` result. -/
def processAudioBody (env : Env) : Except String (List FSeg) := do
  let segments ← env.segmenter
  let merged := merge_segments (0.5 : Rat) segments
  let embeddings := merged.map fun s => get_embeddings env s.start s.stop 40
  let genders := merged.map fun s => get_gender s.cat
  let order := firstOccs genders
  let groups ← order.mapM fun g => do
    let pairs := (merged.zip embeddings).filter fun p => get_gender p.1.cat == g
    if pairs.isEmpty then
      pure []
    else do
      let labels ← env.cluster (pairs.map (·.2))
      pure (List.zipWith
        (fun p lab => CSeg.mk p.1.cat p.1.start p.1.stop p.1.meta g lab)
        pairs labels)
  pure (chronologicalRelabel groups.flatten)

/-- `SpeakerTagger.process_audio` (speaker_tagger.py lines 226-307): on any
failure inside the stage the except-handler aborts the whole request via
`sys.exit(1)`, surfacing an explicit failure that carries the cause. -/
def process_audio (env : Env) : Except ExitFailure (List FSeg) :=
  match processAudioBody env with
  | .ok r => .ok r
  | .error e => .error ⟨1, e⟩

/-- `merge_diarization(file_path, srt_content, remove_timestamps)` from
diarization_gui.py lines 93-166: run the speaker tagger on the audio bound
into `env`, then merge its segments into the SRT content.  A segmentation
failure propagates as the `SystemExit` abort. -/
def merge_diarization (env : Env) (srt_content : String)
    (remove_timestamps : Bool) : Except ExitFailure String :=
  (process_audio env).map
    fun segs => merge_diarization_core segs srt_content remove_timestamps

/-- C7: whenever the external speech-activity segmenter fails — or any
other failure occurs inside the segmentation-and-clustering stage it
begins — the entire diarization request aborts with an explicit failure
carrying exit code 1 and the underlying cause. -/
theorem process_audio_fatal (env : Env) :
    (∀ msg, env.segmenter = .error msg →
        process_audio env = .error ⟨1, msg⟩)
    ∧ (∀ msg, processAudioBody env = .error msg →
        process_audio env = .error ⟨1, msg⟩) := by
  constructor
  · intro msg h
    have hbody : processAudioBody env = .error msg := by
      unfold processAudioBody
      rw [h]
      rfl
    simp [process_audio, hbody]
  · intro msg h
    simp [process_audio, h]

/-- A concrete environment whose external segmenter raises. -/
def envSegFail : Env :=
  { sqrt := fun x => x,
    load := fun _ _ => .error "unused",
    mfcc := fun _ => .error "unused",
    delta := fun _ => .error "unused",
    delta2 := fun _ => .error "unused",
    segmenter := .error "segmenter crashed",
    cluster := fun _ => .error "unused" }

/-- Witness for C7: with a failing segmenter, `process_audio` returns the
abort carrying exit code 1 and the cause, and the whole
`merge_diarization` request aborts with it as well. -/
theorem process_audio_fatal_witness :
    process_audio envSegFail = .error ⟨1, "segmenter crashed"⟩
    ∧ merge_diarization envSegFail "" false = .error ⟨1, "segmenter crashed"⟩ := by
  have h := (process_audio_fatal envSegFail).1 "segmenter crashed" rfl
  exact ⟨h, by rw [merge_diarization, h]; rfl⟩

end SoftWhisper
